import Mathlib

/-!
Shallow embedding of `src/experimental/argset-chaining/setspace.py`.

The source stores string labels in a `SortedDict` per node; we model a node's
children as an association list kept in ascending key order, labels as an
arbitrary linearly ordered type `L`, and opaque values as an arbitrary type
`V`.  Python sets (`current_path`, `covered`) become `Finset L`; Python's
stable `list.sort` becomes a stable insertion sort, which is extensionally
the same function on every input.
-/

set_option linter.unusedSectionVars false

namespace SetSpace

/-- `TrieNode` of setspace.py: an optional stored value plus children keyed by
label; the list models the `SortedDict` (iteration in ascending key order). -/
inductive TrieNode (L V : Type) where
  | mk : Option V → List (L × TrieNode L V) → TrieNode L V

namespace TrieNode

def value {L V : Type} : TrieNode L V → Option V
  | .mk v _ => v

def children {L V : Type} : TrieNode L V → List (L × TrieNode L V)
  | .mk _ cs => cs

/-- A fresh `TrieNode()`. -/
def empty {L V : Type} : TrieNode L V := .mk none []

end TrieNode

variable {L V : Type} [LinearOrder L]

/-- `SortedDict` read: `cs[e]`, returning the child stored under key `e`. -/
def assocGet : List (L × TrieNode L V) → L → Option (TrieNode L V)
  | [], _ => none
  | (k, c) :: rest, e => if e = k then some c else assocGet rest e

/-- `SortedDict` write: `cs[e] = c`, keeping the keys in ascending order and
replacing the binding when the key is already present. -/
def assocInsert (e : L) (c : TrieNode L V) : List (L × TrieNode L V) → List (L × TrieNode L V)
  | [] => [(e, c)]
  | (k, c0) :: rest =>
    if e < k then (e, c) :: (k, c0) :: rest
    else if e = k then (e, c) :: rest
    else (k, c0) :: assocInsert e c rest

/-- One step of the ascending insertion sort modelling Python `sorted`. -/
def insertAsc (x : L) : List L → List L
  | [] => [x]
  | y :: ys => if x ≤ y then x :: y :: ys else y :: insertAsc x ys

/-- Python `sorted(...)`: ascending stable sort; duplicates are kept. -/
def sortAsc (l : List L) : List L := l.foldr insertAsc []

/-- `SetSpace.add`, label-walking part: walks/creates one node per label of the
already sorted list, stores the value at the terminal node and returns the
previous value there (`None` if absent) together with the updated trie. -/
def addPath : TrieNode L V → List L → V → Option V × TrieNode L V
  | t, [], v => (t.value, .mk (some v) t.children)
  | t, e :: rest, v =>
    let child := (assocGet t.children e).getD TrieNode.empty
    let p := addPath child rest v
    (p.1, .mk t.value (assocInsert e p.2 t.children))

/-- `SetSpace.add`: sorts the input labels (no deduplication in the source)
and stores the value at the end of that path. -/
def TrieNode.add (t : TrieNode L V) (labels : List L) (v : V) : Option V × TrieNode L V :=
  addPath t (sortAsc labels) v

/-- `if deeper_match and (not best_match or len(deeper_match[0]) > len(best_match[0])):
best_match = deeper_match` — the candidate update of `_find_best_match`. -/
def updateBest (best deeper : Option (Finset L × V)) : Option (Finset L × V) :=
  match deeper, best with
  | some dm, none => some dm
  | some dm, some bm => if bm.1.card < dm.1.card then some dm else some bm
  | none, b => b

mutual

/-- `SetSpace._find_best_match`: best candidate in this subtree, where the
initial candidate is the node's own value tagged with the accumulated path. -/
def findBestMatch : TrieNode L V → List L → Finset L → Option (Finset L × V)
  | .mk val cs, elements, currentPath =>
    findBestFold cs elements currentPath (val.map fun v => (currentPath, v))

/-- The `for elem, child in node.children.items()` loop of
`_find_best_match`: a deeper match replaces the current best exactly when it
is strictly longer (`len(deeper[0]) > len(best[0])`). -/
def findBestFold :
    List (L × TrieNode L V) → List L → Finset L → Option (Finset L × V) → Option (Finset L × V)
  | [], _, _, best => best
  | (elem, child) :: rest, elements, currentPath, best =>
    findBestFold rest elements currentPath
      (if elem ∈ elements then
        updateBest best (findBestMatch child elements (insert elem currentPath))
      else best)

end

/-- `elements.difference_update(match_set)`: drop the matched labels, keeping
the remaining ones in order. -/
def removeAll (l : List L) (s : Finset L) : List L := l.filter fun x => x ∉ s

/-- The `while elements:` loop of `SetSpace.lookup`.  `none` models the
`return []` taken on a failure in exact mode; the partial flag turns both
failure sites into `continue`. -/
def lookupAux (root : TrieNode L V) : List L → Bool → Option (List V)
  | [], _ => some []
  | e :: rest, part =>
    match assocGet root.children e with
    | none => if part then lookupAux root rest part else none
    | some child =>
      match findBestMatch child rest (∅ : Finset L) with
      | none => if part then lookupAux root rest part else none
      | some m => (lookupAux root (removeAll rest m.1) part).map fun r => m.2 :: r
termination_by l => l.length
decreasing_by
  · simp
  · simp
  · simpa using Nat.lt_succ_of_le (List.length_filter_le _ rest)

/-- `SetSpace.lookup`: the query is canonicalised by `SortedSet` (sorted and
deduplicated) and the loop result is returned, `[]` on exact-mode failure. -/
def lookup (t : TrieNode L V) (query : List L) (part : Bool) : List V :=
  (lookupAux t ((sortAsc query).dedup) part).getD []

mutual

/-- `traverse` of `SetSpace.lookup_all_subsets` at a node. -/
def subsetsNode (q : List L) : TrieNode L V → List V
  | .mk _ cs => subsetsFold q cs

/-- `traverse`'s loop: descend into a child only when its edge label is a
query member, emitting the child's value first (pre-order). -/
def subsetsFold (q : List L) : List (L × TrieNode L V) → List V
  | [] => []
  | (k, c) :: rest =>
    (if k ∈ q then c.value.toList ++ subsetsNode q c else []) ++ subsetsFold q rest

end

/-- `SetSpace.lookup_all_subsets`. -/
def lookupAllSubsets (t : TrieNode L V) (query : List L) : List V := subsetsNode query t

mutual

/-- `collect_paths` of `SetSpace.get_all_elements`: every (path-label-set,
value) pair of a value-bearing node, in trie pre-order.  (The source mutates
one shared set; the functional reading is the same whenever no label repeats
along a path, which holds for every trie built from duplicate-free inserts.) -/
def collectPaths : TrieNode L V → Finset L → List (Finset L × V)
  | .mk val cs, cp => (val.map fun v => (cp, v)).toList ++ collectFold cs cp

/-- `collect_paths`' loop over the children. -/
def collectFold : List (L × TrieNode L V) → Finset L → List (Finset L × V)
  | [], _ => []
  | (e, c) :: rest, cp => collectPaths c (insert e cp) ++ collectFold rest cp

end

/-- One step of the stable descending-by-cardinality insertion sort modelling
`all_paths.sort(key=lambda x: len(x[0]), reverse=True)` (stable: an earlier
entry stays before later entries of equal length). -/
def insertByCard (x : Finset L × V) : List (Finset L × V) → List (Finset L × V)
  | [] => [x]
  | y :: ys => if y.1.card ≤ x.1.card then x :: y :: ys else y :: insertByCard x ys

/-- Python's stable sort by `len(path)` descending. -/
def sortByCardDesc (l : List (Finset L × V)) : List (Finset L × V) := l.foldr insertByCard []

/-- The greedy selection loop of `get_all_elements`: keep an entry exactly
when its path set is not a subset of the labels covered so far. -/
def greedy : Finset L → List (Finset L × V) → List (Finset L × V)
  | _, [] => []
  | covered, (K, v) :: rest =>
    if K ⊆ covered then greedy covered rest
    else (K, v) :: greedy (covered ∪ K) rest

/-- The entries selected by `get_all_elements` (the pairs whose values make up
`result_values`). -/
def greedySelection (t : TrieNode L V) : List (Finset L × V) :=
  greedy ∅ (sortByCardDesc (collectPaths t ∅))

/-- The `result_values` list built by `get_all_elements`. -/
def getAllElementsValues (t : TrieNode L V) : List V := (greedySelection t).map Prod.snd

/-- `SetSpace.get_all_elements`: `[]` when the trie holds no value at all,
otherwise one expression `E(*result_values)` modelled as the list of its
children. -/
def getAllElements (t : TrieNode L V) : List (List V) :=
  if (collectPaths t (∅ : Finset L)).isEmpty then [] else [getAllElementsValues t]

/-- `SpaceManager.spaces` read: `self.spaces.get(str(name))`. -/
def managerGet : List (String × TrieNode L V) → String → Option (TrieNode L V)
  | [], _ => none
  | (k, sp) :: rest, n => if n = k then some sp else managerGet rest n

/-- Store the updated trie back under its name (Python mutates it in place;
the dict's other bindings are untouched). -/
def managerPut : List (String × TrieNode L V) → String → TrieNode L V → List (String × TrieNode L V)
  | [], _, _ => []
  | (k, sp) :: rest, n, sp' => if n = k then (k, sp') :: rest else (k, sp) :: managerPut rest n sp'

/-- `SpaceManager.add_to_space`: on a known handle it runs `add` and returns
`[old_value] if old_value else [value]`; on an unknown handle it returns `[]`. -/
def addToSpace (spaces : List (String × TrieNode L V)) (name : String) (labels : List L) (v : V) :
    List V × List (String × TrieNode L V) :=
  match managerGet spaces name with
  | none => ([], spaces)
  | some sp =>
    let p := sp.add labels v
    ((match p.1 with | some old => [old] | none => [v]), managerPut spaces name p.2)

/-- Fold a list of `(labels, value)` insertions into a fresh trie. -/
def buildTrie (ops : List (List L × V)) : TrieNode L V :=
  ops.foldl (fun t op => (t.add op.1 op.2).2) TrieNode.empty

/-- The node reached from `t` by following the labels of `p` in order. -/
def nodeAt : TrieNode L V → List L → Option (TrieNode L V)
  | t, [] => some t
  | t, e :: p =>
    match assocGet t.children e with
    | none => none
    | some c => nodeAt c p

/-- The value stored at the end of path `p`, if any. -/
def valueAt (t : TrieNode L V) (p : List L) : Option V := (nodeAt t p).bind TrieNode.value

/-!  Spec-side reference definitions for the best-match search (§4.1 of the
spec): matches are the value-bearing descendants reachable by edges drawn
from `remaining`, enumerated in depth-first pre-order (a node's own value
first, then its children in stored — ascending — order), and the search is
to return the first-found among those of maximal consumed-label count. -/

/-- `Descends t p n`: node `n` is reached from `t` by following the
edge-labels of `p` in order. -/
inductive Descends : TrieNode L V → List L → TrieNode L V → Prop where
  | nil (t : TrieNode L V) : Descends t [] t
  | cons {t : TrieNode L V} {e : L} {c n : TrieNode L V} {p : List L} :
      (e, c) ∈ t.children → Descends c p n → Descends t (e :: p) n

/-- Spec §4.1: a match for `_find_best_match` is a value-bearing node
reachable from the start node by a path whose every edge-label belongs to
`remaining`. -/
def IsMatch (t : TrieNode L V) (remaining : List L) (p : List L) (v : V) : Prop :=
  ∃ n, Descends t p n ∧ n.value = some v ∧ ∀ x ∈ p, x ∈ remaining

mutual

/-- Modelled from the spec: all matches of the subtree in depth-first
pre-order — own value first, then the children in stored order — each tagged
with the accumulated path set. -/
def specCandidates : TrieNode L V → List L → Finset L → List (Finset L × V)
  | .mk val cs, remaining, cp =>
    (val.map fun v => (cp, v)).toList ++ specCandFold cs remaining cp

/-- The per-child part of `specCandidates`: a child contributes exactly when
its edge-label is a member of `remaining`. -/
def specCandFold : List (L × TrieNode L V) → List L → Finset L → List (Finset L × V)
  | [], _, _ => []
  | (elem, child) :: rest, remaining, cp =>
    (if elem ∈ remaining then specCandidates child remaining (insert elem cp) else []) ++
      specCandFold rest remaining cp

end

/-- Modelled from the spec: the first-found candidate of maximal consumed
size — a strictly longer later candidate supersedes, a tie keeps the earlier
one. -/
def bestOf : List (Finset L × V) → Option (Finset L × V)
  | [] => none
  | x :: rest =>
    match bestOf rest with
    | none => some x
    | some y => if x.1.card < y.1.card then some y else some x

theorem updateBest_none_left (d : Option (Finset L × V)) : updateBest none d = d := by
  cases d <;> rfl

theorem updateBest_none_right (b : Option (Finset L × V)) : updateBest b none = b := rfl

theorem updateBest_assoc (a b c : Option (Finset L × V)) :
    updateBest (updateBest a b) c = updateBest a (updateBest b c) := by
  cases a with
  | none => rw [updateBest_none_left, updateBest_none_left]
  | some x =>
    cases b with
    | none => rw [updateBest_none_right, updateBest_none_left]
    | some y =>
      cases c with
      | none => rw [updateBest_none_right, updateBest_none_right]
      | some z =>
        by_cases h1 : x.1.card < y.1.card <;> by_cases h2 : y.1.card < z.1.card <;>
          by_cases h3 : x.1.card < z.1.card <;>
          simp [updateBest, h1, h2, h3] <;> omega

theorem bestOf_cons (x : Finset L × V) (l : List (Finset L × V)) :
    bestOf (x :: l) = updateBest (some x) (bestOf l) := by
  cases h : bestOf l <;> simp [bestOf, updateBest, h]

theorem bestOf_append (l₁ l₂ : List (Finset L × V)) :
    bestOf (l₁ ++ l₂) = updateBest (bestOf l₁) (bestOf l₂) := by
  induction l₁ with
  | nil => simp [bestOf, updateBest_none_left]
  | cons x l ih => simp [bestOf_cons, ih, updateBest_assoc]

theorem bestOf_eq_none_iff (l : List (Finset L × V)) : bestOf l = none ↔ l = [] := by
  cases l with
  | nil => simp [bestOf]
  | cons x rest =>
    rw [bestOf_cons]
    cases h : bestOf rest <;> simp [updateBest] <;> split <;> simp

theorem bestOf_mem {l : List (Finset L × V)} {x : Finset L × V} (h : bestOf l = some x) :
    x ∈ l := by
  induction l generalizing x with
  | nil => simp [bestOf] at h
  | cons a rest ih =>
    rw [bestOf_cons] at h
    cases hr : bestOf rest with
    | none =>
      rw [hr] at h; simp only [updateBest] at h
      injection h with h
      simp [h]
    | some y =>
      rw [hr] at h
      simp only [updateBest] at h
      split at h <;> injection h with h
      · exact List.mem_cons_of_mem _ (h ▸ ih hr)
      · simp [h]

theorem bestOf_max {l : List (Finset L × V)} {x : Finset L × V} (h : bestOf l = some x) :
    ∀ y ∈ l, y.1.card ≤ x.1.card := by
  induction l generalizing x with
  | nil => simp [bestOf] at h
  | cons a rest ih =>
    rw [bestOf_cons] at h
    intro z hz
    cases hr : bestOf rest with
    | none =>
      rw [hr] at h; simp only [updateBest] at h
      injection h with h
      rw [bestOf_eq_none_iff] at hr
      subst hr
      rcases List.mem_cons.mp hz with rfl | hz0
      · rw [h]
      · simp at hz0
    | some y =>
      rw [hr] at h
      simp only [updateBest] at h
      rcases List.mem_cons.mp hz with rfl | hz0
      · split at h <;> injection h with h <;> rw [← h] <;> omega
      · have := ih hr z hz0
        split at h <;> injection h with h <;> rw [← h] <;> omega

theorem bestOf_cons_of_le {x : Finset L × V} {l : List (Finset L × V)}
    (h : ∀ y ∈ l, y.1.card ≤ x.1.card) : bestOf (x :: l) = some x := by
  rw [bestOf_cons]
  cases hr : bestOf l with
  | none => rfl
  | some y =>
    have := h y (bestOf_mem hr)
    simp [updateBest]
    omega

mutual

theorem findBestMatch_eq (t : TrieNode L V) (el : List L) (cp : Finset L) :
    findBestMatch t el cp = bestOf (specCandidates t el cp) := by
  cases t with
  | mk val cs =>
    rw [findBestMatch, specCandidates, findBestFold_eq cs el cp, bestOf_append]
    cases val <;> simp [bestOf, updateBest_none_left]
termination_by sizeOf t
decreasing_by all_goals ((try simp); (try omega))

theorem findBestFold_eq (cs : List (L × TrieNode L V)) (el : List L) (cp : Finset L)
    (b : Option (Finset L × V)) :
    findBestFold cs el cp b = updateBest b (bestOf (specCandFold cs el cp)) := by
  cases cs with
  | nil => simp [findBestFold, specCandFold, bestOf, updateBest_none_right]
  | cons hd rest =>
    rw [findBestFold, specCandFold, findBestFold_eq rest el cp, bestOf_append]
    by_cases h : hd.1 ∈ el
    · simp only [if_pos h]
      rw [findBestMatch_eq hd.2 el (insert hd.1 cp), updateBest_assoc]
    · simp only [if_neg h, bestOf, updateBest_none_left]
termination_by sizeOf cs
decreasing_by all_goals ((try rcases head with ⟨a, c⟩); (try simp); (try omega))

end

theorem descends_nil_iff (t n : TrieNode L V) : Descends t [] n ↔ n = t := by
  constructor
  · intro h; cases h; rfl
  · rintro rfl; exact .nil _

theorem descends_cons_iff (t n : TrieNode L V) (e : L) (p : List L) :
    Descends t (e :: p) n ↔ ∃ c, (e, c) ∈ t.children ∧ Descends c p n := by
  constructor
  · intro h; cases h with
    | cons hc hd => exact ⟨_, hc, hd⟩
  · rintro ⟨c, hc, hd⟩; exact .cons hc hd


theorem TrieNode.children_mk (v : Option V) (cs : List (L × TrieNode L V)) :
    (TrieNode.mk v cs).children = cs := rfl

theorem TrieNode.value_mk (v : Option V) (cs : List (L × TrieNode L V)) :
    (TrieNode.mk v cs).value = v := rfl

theorem union_insert_toFinset (cp : Finset L) (e : L) (p : List L) :
    cp ∪ (e :: p).toFinset = insert e cp ∪ p.toFinset := by
  ext x; simp

mutual

theorem specCandidates_mem (t : TrieNode L V) (el : List L) (cp : Finset L) (S : Finset L) (v : V) :
    (S, v) ∈ specCandidates t el cp ↔ ∃ p, IsMatch t el p v ∧ S = cp ∪ p.toFinset := by
  cases t with
  | mk val cs =>
    rw [specCandidates]
    constructor
    · intro h
      rcases List.mem_append.mp h with h | h
      · cases val with
        | none => simp at h
        | some w =>
          simp at h
          refine ⟨[], ⟨TrieNode.mk (some w) cs, .nil _, by rw [TrieNode.value_mk, h.2], ?_⟩, ?_⟩
          · intro x hx; exact absurd hx (List.not_mem_nil x)
          · rw [h.1]; simp
      · rcases (specCandFold_mem cs el cp S v).mp h with ⟨e, c, hmem, hel, p, ⟨n, hd, hv, hall⟩, hS⟩
        refine ⟨e :: p, ⟨n, .cons (by rw [TrieNode.children_mk]; exact hmem) hd, hv, ?_⟩, ?_⟩
        · intro x hx
          rcases List.mem_cons.mp hx with rfl | hx
          · exact hel
          · exact hall x hx
        · rw [hS, union_insert_toFinset]
    · rintro ⟨p, ⟨n, hd, hv, hall⟩, rfl⟩
      cases hd with
      | nil =>
        apply List.mem_append.mpr; left
        rw [TrieNode.value_mk] at hv
        rw [hv]
        simp
      | cons hc hd' =>
        apply List.mem_append.mpr; right
        rename_i e c p'
        apply (specCandFold_mem cs el cp _ v).mpr
        exact ⟨e, c, by rw [TrieNode.children_mk] at hc; exact hc, hall e (by simp), p',
          ⟨n, hd', hv, fun x hx => hall x (List.mem_cons_of_mem _ hx)⟩,
          union_insert_toFinset cp e p'⟩
termination_by sizeOf t
decreasing_by all_goals ((try subst_vars); (try simp); (try omega))

theorem specCandFold_mem (cs : List (L × TrieNode L V)) (el : List L) (cp : Finset L)
    (S : Finset L) (v : V) :
    (S, v) ∈ specCandFold cs el cp ↔
      ∃ e c, (e, c) ∈ cs ∧ e ∈ el ∧ ∃ p, IsMatch c el p v ∧ S = insert e cp ∪ p.toFinset := by
  cases cs with
  | nil => simp [specCandFold]
  | cons hd rest =>
    rw [specCandFold]
    constructor
    · intro h
      rcases List.mem_append.mp h with h | h
      · by_cases hel : hd.1 ∈ el
        · rw [if_pos hel] at h
          rcases (specCandidates_mem hd.2 el (insert hd.1 cp) S v).mp h with ⟨p, hm, hS⟩
          exact ⟨hd.1, hd.2, by simp, hel, p, hm, hS⟩
        · rw [if_neg hel] at h; simp at h
      · rcases (specCandFold_mem rest el cp S v).mp h with ⟨e, c, hmem, hel, hp⟩
        exact ⟨e, c, List.mem_cons_of_mem _ hmem, hel, hp⟩
    · rintro ⟨e, c, hmem, hel, p, hm, hS⟩
      rcases List.mem_cons.mp hmem with heq | hmem
      · apply List.mem_append.mpr; left
        have h1 : hd.1 = e := by rw [← heq]
        have h2 : hd.2 = c := by rw [← heq]
        rw [h1, if_pos hel, h2]
        exact (specCandidates_mem c el (insert e cp) S v).mpr ⟨p, hm, hS⟩
      · exact List.mem_append.mpr (Or.inr ((specCandFold_mem rest el cp S v).mpr
          ⟨e, c, hmem, hel, p, hm, hS⟩))
termination_by sizeOf cs
decreasing_by all_goals ((try subst_vars); (try rcases head with ⟨k1, t1⟩); (try simp); (try omega))

end


/-- The loop states of `SetSpace.lookup` reachable from a starting remaining
list: each step pops the head label, finds its child and best match, and
removes the matched labels. -/
inductive LookupReaches (t : TrieNode L V) (start : List L) : List L → Prop where
  | refl : LookupReaches t start start
  | step {e : L} {rest : List L} {c : TrieNode L V} {m : Finset L × V} :
      LookupReaches t start (e :: rest) →
      assocGet t.children e = some c →
      findBestMatch c rest ∅ = some m →
      LookupReaches t start (removeAll rest m.1)

theorem lookupAux_none_of_reaches {t : TrieNode L V} {start s : List L}
    (hr : LookupReaches t start s) (hs : lookupAux t s false = none) :
    lookupAux t start false = none := by
  induction hr with
  | refl => exact hs
  | step hr hget hbest ih =>
    apply ih
    simp [lookupAux, hget, hbest, hs]

/-- C1: in exact mode, a failure at any loop state — the popped label has no
child at the trie root, or the best-match search comes back empty — makes the
whole `lookup` return `[]`, whatever the other labels would have produced. -/
theorem lookup_exact_all_or_nothing (t : TrieNode L V) (q : List L) (e : L) (rest : List L)
    (hreach : LookupReaches t ((sortAsc q).dedup) (e :: rest))
    (hfail : assocGet t.children e = none ∨
      ∀ c, assocGet t.children e = some c → findBestMatch c rest ∅ = none) :
    lookup t q false = [] := by
  have hs : lookupAux t (e :: rest) false = none := by
    cases hget : assocGet t.children e with
    | none => simp [lookupAux, hget]
    | some c =>
      rcases hfail with h | h
      · rw [hget] at h; cases h
      · simp [lookupAux, hget, h c hget]
  rw [lookup, lookupAux_none_of_reaches hreach hs]
  rfl

/-- C1 witness: with only the set containing label 0 registered, the exact
query for labels 0 and 2 returns nothing even though 0 alone would match. -/
theorem lookup_exact_all_or_nothing_witness :
    lookup (TrieNode.empty.add [0] "a").2 [0, 2] false = [] := by
  have h0 : (sortAsc ([0, 2] : List Nat)).dedup = [0, 2] := by decide
  have h2 : LookupReaches (TrieNode.empty.add [0] "a").2 [0, 2]
      (removeAll [2] ((∅, "a") : Finset Nat × String).1) :=
    .step (c := TrieNode.mk (some "a") []) .refl rfl rfl
  have h3 : removeAll [2] ((∅, "a") : Finset Nat × String).1 = [2] := by decide
  rw [h3] at h2
  refine lookup_exact_all_or_nothing _ _ 2 [] ?_ (Or.inl rfl)
  rw [h0]
  exact h2

/-- C2: the best-match search agrees with the spec-side reference: it is the
first-found candidate of maximal consumed size among the depth-first,
children-in-stored-order enumeration of all matches; it is `none` exactly
when no value-bearing node is reachable under the `remaining` constraint; any
returned match is a real match of maximal consumed label count; and the
node's own value is returned with the accumulated path when nothing strictly
longer exists. -/
theorem find_best_match_spec (t : TrieNode L V) (el : List L) (cp : Finset L) :
    findBestMatch t el cp = bestOf (specCandidates t el cp) ∧
    (findBestMatch t el cp = none ↔ ∀ p v, ¬ IsMatch t el p v) ∧
    (∀ S v, findBestMatch t el cp = some (S, v) →
      (∃ p, IsMatch t el p v ∧ S = cp ∪ p.toFinset) ∧
      ∀ q w, IsMatch t el q w → (cp ∪ q.toFinset).card ≤ S.card) ∧
    (∀ v, t.value = some v →
      (∀ q w, IsMatch t el q w → (cp ∪ q.toFinset).card ≤ cp.card) →
      findBestMatch t el cp = some (cp, v)) := by
  refine ⟨findBestMatch_eq t el cp, ?_, ?_, ?_⟩
  · rw [findBestMatch_eq, bestOf_eq_none_iff]
    constructor
    · intro hnil p v hm
      have : (cp ∪ p.toFinset, v) ∈ specCandidates t el cp :=
        (specCandidates_mem t el cp _ v).mpr ⟨p, hm, rfl⟩
      rw [hnil] at this
      exact absurd this (List.not_mem_nil _)
    · intro hno
      rcases List.eq_nil_or_concat (specCandidates t el cp) with h | ⟨l, x, h⟩
      · exact h
      · exfalso
        have hx : x ∈ specCandidates t el cp := by rw [h]; simp
        rcases (specCandidates_mem t el cp x.1 x.2).mp (by simpa using hx) with ⟨p, hm, _⟩
        exact hno p x.2 hm
  · intro S v hfind
    rw [findBestMatch_eq] at hfind
    constructor
    · exact (specCandidates_mem t el cp S v).mp (bestOf_mem hfind)
    · intro q w hm
      have : (cp ∪ q.toFinset, w) ∈ specCandidates t el cp :=
        (specCandidates_mem t el cp _ w).mpr ⟨q, hm, rfl⟩
      exact bestOf_max hfind _ this
  · intro v hv hle
    cases t with
    | mk val cs =>
      rw [TrieNode.value_mk] at hv
      subst hv
      rw [findBestMatch_eq, specCandidates]
      show bestOf ((cp, v) :: specCandFold cs el cp) = some (cp, v)
      apply bestOf_cons_of_le
      intro y hy
      have : (y.1, y.2) ∈ specCandidates (TrieNode.mk (some v) cs) el cp := by
        rw [specCandidates]
        simpa using Or.inr hy
      rcases (specCandidates_mem _ el cp y.1 y.2).mp this with ⟨p, hm, hS⟩
      have := hle p y.2 hm
      rw [hS]
      simpa using this

/-- C2 witness: the equality between the source search and the spec-side
reference at one concrete trie and query. -/
theorem find_best_match_spec_witness :
    findBestMatch (TrieNode.mk (some "a") [(1, TrieNode.mk (some "ab") [])]) [1] (∅ : Finset Nat) =
      bestOf (specCandidates (TrieNode.mk (some "a") [(1, TrieNode.mk (some "ab") [])]) [1] ∅) :=
  (find_best_match_spec _ _ _).1

/-- The trie of the spec's concrete scenario — sets 0, then 0 1, then 1 2,
with values "a", "ab", "bc" (labels A, B, C rendered as 0, 1, 2). -/
def exTrie : TrieNode Nat String :=
  (((TrieNode.empty.add [0] "a").2.add [0, 1] "ab").2.add [1, 2] "bc").2

/-- C3: the spec's concrete scenario: exact lookup of 0 1 gives "ab"; exact
lookup of 0 1 2 fails to the empty list; the same query in partial mode gives
"ab"; and subset enumeration of 0 1 2 gives "a", "ab", "bc" in trie
pre-order. -/
theorem scenario_lookups :
    lookup exTrie [0, 1] false = ["ab"] ∧
    lookup exTrie [0, 1, 2] false = [] ∧
    lookup exTrie [0, 1, 2] true = ["ab"] ∧
    lookupAllSubsets exTrie [0, 1, 2] = ["a", "ab", "bc"] := by
  refine ⟨?_, ?_, ?_, by decide⟩ <;>
    simp [lookup, lookupAux, findBestMatch, findBestFold, updateBest, exTrie, TrieNode.add,
      addPath, sortAsc, insertAsc, assocGet, assocInsert, TrieNode.empty, TrieNode.children,
      TrieNode.value, removeAll]

theorem assocGet_assocInsert_self (e : L) (c : TrieNode L V) (cs : List (L × TrieNode L V)) :
    assocGet (assocInsert e c cs) e = some c := by
  induction cs with
  | nil => simp [assocInsert, assocGet]
  | cons hd rest ih =>
    rw [assocInsert]
    by_cases h1 : e < hd.1
    · simp [if_pos h1, assocGet]
    · rw [if_neg h1]
      by_cases h2 : e = hd.1
      · simp [if_pos h2, assocGet]
      · rw [if_neg h2, assocGet, if_neg h2]
        exact ih

theorem addPath_empty_fst (p : List L) (v : V) :
    (addPath (TrieNode.empty : TrieNode L V) p v).1 = none := by
  induction p with
  | nil => rfl
  | cons e rest ih =>
    rw [addPath]
    simp only [TrieNode.empty, TrieNode.children_mk, assocGet, Option.getD_none]
    exact ih

theorem addPath_addPath_fst (s : List L) (t : TrieNode L V) (v1 v2 : V) :
    (addPath (addPath t s v1).2 s v2).1 = some v1 := by
  induction s generalizing t with
  | nil => rfl
  | cons e rest ih =>
    rw [addPath, addPath]
    simp only [assocGet_assocInsert_self, Option.getD_some, TrieNode.children_mk]
    exact ih _

/-- The linear trie holding a single value at the end of the path `s`. -/
def pathTrie : List L → V → TrieNode L V
  | [], v => .mk (some v) []
  | e :: rest, v => .mk none [(e, pathTrie rest v)]

theorem addPath_empty_eq_pathTrie (s : List L) (v : V) :
    (addPath (TrieNode.empty : TrieNode L V) s v).2 = pathTrie s v := by
  induction s with
  | nil => rfl
  | cons e rest ih =>
    rw [addPath]
    simp only [TrieNode.empty, TrieNode.children_mk, TrieNode.value_mk, assocGet,
      Option.getD_none, assocInsert, pathTrie]
    exact congrArg (fun c => TrieNode.mk none [(e, c)]) ih

theorem addPath_pathTrie_overwrite (s : List L) (v1 v2 : V) :
    (addPath (pathTrie s v1) s v2).2 = pathTrie s v2 := by
  induction s with
  | nil => rfl
  | cons e rest ih =>
    simp [addPath, pathTrie, assocGet, assocInsert, TrieNode.children, TrieNode.value, ih]

theorem insertAsc_perm (x : L) (l : List L) : (insertAsc x l).Perm (x :: l) := by
  induction l with
  | nil => rfl
  | cons y ys ih =>
    rw [insertAsc]
    by_cases h : x ≤ y
    · rw [if_pos h]
    · rw [if_neg h]
      exact (ih.cons y).trans (List.Perm.swap x y ys)

theorem sortAsc_perm (l : List L) : (sortAsc l).Perm l := by
  induction l with
  | nil => rfl
  | cons x xs ih => exact (insertAsc_perm x (sortAsc xs)).trans (ih.cons x)

theorem insertAsc_sorted (x : L) {l : List L} (h : l.Sorted (· ≤ ·)) :
    (insertAsc x l).Sorted (· ≤ ·) := by
  induction l with
  | nil => simp [insertAsc]
  | cons y ys ih =>
    rw [insertAsc]
    by_cases hxy : x ≤ y
    · rw [if_pos hxy]
      refine List.sorted_cons.mpr ⟨?_, h⟩
      intro b hb
      rcases List.mem_cons.mp hb with rfl | hb
      · exact hxy
      · exact le_trans hxy ((List.sorted_cons.mp h).1 b hb)
    · rw [if_neg hxy]
      have hs := List.sorted_cons.mp h
      refine List.sorted_cons.mpr ⟨?_, ih hs.2⟩
      intro b hb
      have := (insertAsc_perm x ys).mem_iff.mp hb
      rcases List.mem_cons.mp this with rfl | hb2
      · exact le_of_not_le hxy
      · exact hs.1 b hb2

theorem sortAsc_sorted (l : List L) : (sortAsc l).Sorted (· ≤ ·) := by
  induction l with
  | nil => simp [sortAsc]
  | cons x xs ih => exact insertAsc_sorted x ih

theorem sortAsc_eq_of_perm {l1 l2 : List L} (h : l1.Perm l2) : sortAsc l1 = sortAsc l2 :=
  List.eq_of_perm_of_sorted (((sortAsc_perm l1).trans h).trans (sortAsc_perm l2).symm)
    (sortAsc_sorted l1) (sortAsc_sorted l2)


theorem findBestMatch_pathTrie (s : List L) (v : V) :
    ∀ (el : List L) (cp : Finset L), (∀ x ∈ s, x ∈ el) →
      findBestMatch (pathTrie s v) el cp = some (cp ∪ s.toFinset, v) := by
  induction s with
  | nil =>
    intro el cp _
    rw [pathTrie, findBestMatch, findBestFold]
    simp
  | cons e rest ih =>
    intro el cp hsub
    rw [pathTrie, findBestMatch, findBestFold]
    have he : e ∈ el := hsub e (by simp)
    rw [if_pos he, ih el (insert e cp) fun x hx => hsub x (List.mem_cons_of_mem _ hx)]
    simp only [Option.map_none', updateBest, findBestFold]
    rw [union_insert_toFinset]

theorem removeAll_self_toFinset (s : List L) : removeAll s s.toFinset = [] := by
  rw [removeAll]
  simp

theorem lookup_pathTrie (s : List L) (v : V) (hs : s ≠ []) (hnd : s.Nodup)
    (hsorted : s.Sorted (· ≤ ·)) : lookup (pathTrie s v) (s : List L) false = [v] := by
  have hcanon : (sortAsc s).dedup = s := by
    rw [List.eq_of_perm_of_sorted (sortAsc_perm s) (sortAsc_sorted s) hsorted,
      List.dedup_eq_self.mpr hnd]
  rw [lookup, hcanon]
  cases s with
  | nil => exact absurd rfl hs
  | cons e rest =>
    rw [lookupAux]
    have hget : assocGet (pathTrie (e :: rest) v).children e = some (pathTrie rest v) := by
      rw [pathTrie, TrieNode.children_mk, assocGet, if_pos rfl]
    have hbm := findBestMatch_pathTrie rest v rest ∅ (fun x hx => hx)
    rw [Finset.empty_union] at hbm
    simp only [hget, hbm, removeAll_self_toFinset]
    rw [lookupAux]
    rfl


/-- C4 counterexample: on a fresh insert with no previous value, the
registry-level `add_to_space` returns the newly supplied value `["x"]`, not
absent; and for the empty LabelSet, the claimed follow-up lookup of `[V2]`
also fails — inserting twice under the empty set and looking it up gives
`[]`. -/
theorem registry_add_returns_new_value :
    (addToSpace [("s", (TrieNode.empty : TrieNode Nat String))] "s" [0] "x").1 = ["x"] ∧
    ((TrieNode.empty : TrieNode Nat String).add [0] "x").1 = none ∧
    lookup (((TrieNode.empty : TrieNode Nat String).add [] "v1").2.add [] "v2").2 [] false
      = [] := by
  refine ⟨by decide, by decide, ?_⟩
  simp [lookup, lookupAux, sortAsc]

/-- C4 (amended): `SetSpace.add` returns the previous value or absent —
absent on a fresh trie, then the first value, with a final exact lookup of a
nonempty duplicate-free set giving the second value — while the registry
`add_to_space` on a known handle returns the previous value only when one
existed (on a fresh key it returns the new value, as the counterexample
shows). -/
theorem add_overwrite_contract (l : List L) (v1 v2 : V) (hnd : l.Nodup) (hne : l ≠ []) :
    ((TrieNode.empty : TrieNode L V).add l v1).1 = none ∧
    (((TrieNode.empty : TrieNode L V).add l v1).2.add l v2).1 = some v1 ∧
    lookup (((TrieNode.empty : TrieNode L V).add l v1).2.add l v2).2 l false = [v2] ∧
    (∀ (spaces : List (String × TrieNode L V)) (nm : String) (sp : TrieNode L V) (o : V),
      managerGet spaces nm = some sp → (sp.add l v2).1 = some o →
      (addToSpace spaces nm l v2).1 = [o]) := by
  refine ⟨addPath_empty_fst _ _, addPath_addPath_fst _ _ _ _, ?_, ?_⟩
  · rw [TrieNode.add, TrieNode.add, addPath_empty_eq_pathTrie, addPath_pathTrie_overwrite]
    have hsp : (sortAsc l).Perm l := sortAsc_perm l
    have hlookup := lookup_pathTrie (sortAsc l) v2
      (fun h => hne (List.Perm.eq_nil (h ▸ hsp).symm ▸ rfl))
      (hsp.nodup_iff.mpr hnd) (sortAsc_sorted l)
    have hss : sortAsc (sortAsc l) = sortAsc l := sortAsc_eq_of_perm hsp
    rw [lookup, hss] at hlookup
    rw [lookup]
    exact hlookup
  · intro spaces nm sp o hget hold
    rw [addToSpace, hget]
    simp only [hold]

/-- C4 witness: the amended contract at the one-label set 0 with values "x"
then "y". -/
theorem add_overwrite_contract_witness :
    ((TrieNode.empty : TrieNode Nat String).add [0] "x").1 = none ∧
    (((TrieNode.empty : TrieNode Nat String).add [0] "x").2.add [0] "y").1 = some "x" ∧
    lookup (((TrieNode.empty : TrieNode Nat String).add [0] "x").2.add [0] "y").2 [0] false
      = ["y"] ∧
    (∀ (spaces : List (String × TrieNode Nat String)) (nm : String)
      (sp : TrieNode Nat String) (o : String),
      managerGet spaces nm = some sp → (sp.add [0] "y").1 = some o →
      (addToSpace spaces nm [0] "y").1 = [o]) :=
  add_overwrite_contract [0] "x" "y" (by decide) (by decide)

/-- C6 counterexample: inserting the duplicate-bearing collection 0 0 stores
its value at the node of path 0, 0 — not at the node of the deduplicated set
0 — and a later insert of the deduplicated set 0 returns no previous value. -/
theorem add_does_not_dedupe :
    valueAt ((TrieNode.empty : TrieNode Nat String).add [0, 0] "x").2 [0, 0] = some "x" ∧
    valueAt ((TrieNode.empty : TrieNode Nat String).add [0, 0] "x").2 [0] = none ∧
    (((TrieNode.empty : TrieNode Nat String).add [0, 0] "x").2.add [0] "y").1 = none := by
  refine ⟨by decide, by decide, by decide⟩

/-- C6 (amended): insertion canonicalises only by sorting ascending — it
keeps duplicate labels, which walk one node deeper each — so it is input
collections that are permutations of one another (in particular any two
duplicate-free collections with the same underlying label set) that address
the same trie entry, the second insert returning the first's value. -/
theorem add_canonicalises_by_sorting (t : TrieNode L V) (l1 l2 : List L) (v1 v2 : V)
    (hperm : l1.Perm l2) :
    sortAsc l1 = sortAsc l2 ∧ ((t.add l1 v1).2.add l2 v2).1 = some v1 := by
  have hs := sortAsc_eq_of_perm hperm
  refine ⟨hs, ?_⟩
  rw [TrieNode.add, TrieNode.add, hs]
  exact addPath_addPath_fst _ _ _ _

/-- C6 witness: the two orderings of the set 0 1 address the same entry. -/
theorem add_canonicalises_by_sorting_witness :
    sortAsc [1, 0] = sortAsc [0, 1] ∧
    (((TrieNode.empty : TrieNode Nat String).add [1, 0] "x").2.add [0, 1] "y").1 = some "x" :=
  add_canonicalises_by_sorting TrieNode.empty [1, 0] [0, 1] "x" "y" (by decide)


mutual

theorem subsetsNode_mem (q : List L) (t : TrieNode L V) (v : V) :
    v ∈ subsetsNode q t ↔
      ∃ p n, Descends t p n ∧ p ≠ [] ∧ n.value = some v ∧ ∀ x ∈ p, x ∈ q := by
  cases t with
  | mk val cs =>
    rw [subsetsNode]
    rw [subsetsFold_mem q cs v]
    constructor
    · rintro ⟨k, c, hmem, hk, p, n, hd, hv, hall⟩
      refine ⟨k :: p, n, .cons (by rw [TrieNode.children_mk]; exact hmem) hd, by simp, hv, ?_⟩
      intro x hx
      rcases List.mem_cons.mp hx with rfl | hx
      · exact hk
      · exact hall x hx
    · rintro ⟨p, n, hd, hne, hv, hall⟩
      cases hd with
      | nil => exact absurd rfl hne
      | cons hc hd' =>
        rename_i k c p'
        exact ⟨k, c, by rw [TrieNode.children_mk] at hc; exact hc, hall k (by simp), p', n,
          hd', hv, fun x hx => hall x (List.mem_cons_of_mem _ hx)⟩
termination_by sizeOf t
decreasing_by all_goals ((try subst_vars); (try simp); (try omega))

theorem subsetsFold_mem (q : List L) (cs : List (L × TrieNode L V)) (v : V) :
    v ∈ subsetsFold q cs ↔
      ∃ k c, (k, c) ∈ cs ∧ k ∈ q ∧
        ∃ p n, Descends c p n ∧ n.value = some v ∧ ∀ x ∈ p, x ∈ q := by
  cases cs with
  | nil => simp [subsetsFold]
  | cons hd rest =>
    rw [subsetsFold]
    constructor
    · intro h
      rcases List.mem_append.mp h with h | h
      · by_cases hk : hd.1 ∈ q
        · rw [if_pos hk] at h
          rcases List.mem_append.mp h with h | h
          · refine ⟨hd.1, hd.2, by simp, hk, [], hd.2, .nil _, ?_, by simp⟩
            cases hval : hd.2.value <;> rw [hval] at h <;> simp_all
          · rcases (subsetsNode_mem q hd.2 v).mp h with ⟨p, n, hdq, hne, hv, hall⟩
            exact ⟨hd.1, hd.2, by simp, hk, p, n, hdq, hv, hall⟩
        · rw [if_neg hk] at h; simp at h
      · rcases (subsetsFold_mem q rest v).mp h with ⟨k, c, hmem, hk, hrest⟩
        exact ⟨k, c, List.mem_cons_of_mem _ hmem, hk, hrest⟩
    · rintro ⟨k, c, hmem, hk, p, n, hd2, hv, hall⟩
      rcases List.mem_cons.mp hmem with heq | hmem
      · apply List.mem_append.mpr; left
        have h1 : hd.1 = k := by rw [← heq]
        have h2 : hd.2 = c := by rw [← heq]
        rw [h1, if_pos hk, h2]
        cases hd2 with
        | nil =>
          apply List.mem_append.mpr; left
          rw [hv]; simp
        | cons hc hd3 =>
          apply List.mem_append.mpr; right
          rename_i k' c' p'
          apply (subsetsNode_mem q c v).mpr
          exact ⟨k' :: p', n, .cons hc hd3, by simp, hv,
            fun x hx => hall x hx⟩
      · exact List.mem_append.mpr (Or.inr ((subsetsFold_mem q rest v).mpr
          ⟨k, c, hmem, hk, p, n, hd2, hv, hall⟩))
termination_by sizeOf cs
decreasing_by all_goals ((try subst_vars); (try rcases head with ⟨k1, t1⟩); (try simp); (try omega))

end


/-- C5 counterexample: the empty LabelSet is registered with value "r" (it
sits on the root), the empty set is a subset of the query 0, yet
`lookup_all_subsets` returns nothing. -/
theorem root_entry_never_enumerated :
    valueAt ((TrieNode.empty : TrieNode Nat String).add [] "r").2 [] = some "r" ∧
    ([] : List Nat).toFinset ⊆ [0].toFinset ∧
    lookupAllSubsets ((TrieNode.empty : TrieNode Nat String).add [] "r").2 [0] = [] := by
  refine ⟨by decide, by decide, by decide⟩

/-- C5 (amended): for every registered pair reached by a nonempty path, the
value appears in `lookup_all_subsets(Q)` iff the path's label set is a subset
of the query; the root's value — the empty LabelSet's entry — is never
returned. -/
theorem lookup_all_subsets_iff (t : TrieNode L V) (q : List L) :
    (∀ p n v, Descends t p n → n.value = some v → p ≠ [] →
      p.toFinset ⊆ q.toFinset → v ∈ lookupAllSubsets t q) ∧
    (∀ v, v ∈ lookupAllSubsets t q →
      ∃ p n, Descends t p n ∧ n.value = some v ∧ p ≠ [] ∧ p.toFinset ⊆ q.toFinset) := by
  constructor
  · intro p n v hd hv hne hsub
    exact (subsetsNode_mem q t v).mpr ⟨p, n, hd, hne, hv,
      fun x hx => List.mem_toFinset.mp (hsub (List.mem_toFinset.mpr hx))⟩
  · intro v hv
    rcases (subsetsNode_mem q t v).mp hv with ⟨p, n, hd, hne, hval, hall⟩
    exact ⟨p, n, hd, hval, hne,
      fun x hx => List.mem_toFinset.mpr (hall x (List.mem_toFinset.mp hx))⟩

/-- The scenario trie written out node by node. -/
theorem exTrie_eq :
    exTrie = TrieNode.mk none
      [(0, TrieNode.mk (some "a") [(1, TrieNode.mk (some "ab") [])]),
       (1, TrieNode.mk none [(2, TrieNode.mk (some "bc") [])])] := by rfl

/-- C5 witness: in the scenario trie, value "bc" of the registered set 1 2 is
enumerated for the query 0 1 2. -/
theorem lookup_all_subsets_iff_witness :
    "bc" ∈ lookupAllSubsets exTrie [0, 1, 2] :=
  (lookup_all_subsets_iff exTrie [0, 1, 2]).1 [1, 2]
    (TrieNode.mk (some "bc") []) "bc"
    (.cons (c := TrieNode.mk none [(2, TrieNode.mk (some "bc") [])])
      (by rw [exTrie_eq, TrieNode.children_mk]
          exact List.mem_cons_of_mem _ (List.mem_cons_self _ _))
      (.cons (by rw [TrieNode.children_mk]; exact List.mem_cons_self _ _) (.nil _)))
    rfl (by decide) (by decide)


theorem lookupAux_root_value_irrelevant (a b : Option V) (cs : List (L × TrieNode L V)) :
    ∀ (n : Nat) (s : List L), s.length ≤ n → ∀ (part : Bool),
      lookupAux (TrieNode.mk a cs) s part = lookupAux (TrieNode.mk b cs) s part := by
  intro n
  induction n with
  | zero =>
    intro s hs part
    have : s = [] := List.length_eq_zero.mp (Nat.le_zero.mp hs)
    subst this
    rw [lookupAux, lookupAux]
  | succ n ih =>
    intro s hs part
    cases s with
    | nil => rw [lookupAux, lookupAux]
    | cons e rest =>
      have hr : rest.length ≤ n := by simpa using hs
      rw [lookupAux, lookupAux]
      simp only [TrieNode.children_mk]
      cases hget : assocGet cs e with
      | none =>
        simp only [hget]
        cases part
        · rfl
        · exact ih rest hr true
      | some c =>
        simp only [hget]
        cases hbm : findBestMatch c rest (∅ : Finset L) with
        | none =>
          simp only [hbm]
          cases part
          · rfl
          · exact ih rest hr true
        | some m =>
          simp only [hbm]
          have hlen : (removeAll rest m.1).length ≤ n :=
            le_trans (List.length_filter_le _ _) hr
          rw [ih (removeAll rest m.1) hlen part]

theorem greedy_sel (c : Finset L) (l : List (Finset L × V)) :
    ∀ x ∈ greedy c l, x ∈ l ∧ x.1 ≠ ∅ := by
  induction l generalizing c with
  | nil => intro x hx; simp [greedy] at hx
  | cons hd rest ih =>
    intro x hx
    rw [greedy] at hx
    by_cases hsub : hd.1 ⊆ c
    · rw [if_pos hsub] at hx
      rcases ih c x hx with ⟨hm, hne⟩
      exact ⟨List.mem_cons_of_mem _ hm, hne⟩
    · rw [if_neg hsub] at hx
      rcases List.mem_cons.mp hx with rfl | hx
      · refine ⟨List.mem_cons_self _ _, ?_⟩
        intro h
        exact hsub (h ▸ Finset.empty_subset c)
      · rcases ih (c ∪ hd.1) x hx with ⟨hm, hne⟩
        exact ⟨List.mem_cons_of_mem _ hm, hne⟩

theorem insertByCard_perm (x : Finset L × V) (l : List (Finset L × V)) :
    (insertByCard x l).Perm (x :: l) := by
  induction l with
  | nil => rfl
  | cons y ys ih =>
    rw [insertByCard]
    by_cases h : y.1.card ≤ x.1.card
    · rw [if_pos h]
    · rw [if_neg h]
      exact (ih.cons y).trans (List.Perm.swap x y ys)

theorem sortByCardDesc_perm (l : List (Finset L × V)) : (sortByCardDesc l).Perm l := by
  induction l with
  | nil => rfl
  | cons x xs ih => exact (insertByCard_perm x (sortByCardDesc xs)).trans (ih.cons x)

/-- C9: a value inserted under the empty LabelSet lands on the root node
(children untouched), a second empty-set insert returns it as the previous
value, and no query operation ever surfaces it: `lookup` (both modes) and
`lookup_all_subsets` give identical results with or without it, and every
value selected by `get_all_elements` originates at an entry with a nonempty
path set — never the root. -/
theorem empty_set_insert_invisible (t : TrieNode L V) (v w : V) (q : List L) (part : Bool) :
    ((t.add [] v).2).value = some v ∧
    ((t.add [] v).2).children = t.children ∧
    (((t.add [] v).2).add [] w).1 = some v ∧
    lookup (t.add [] v).2 q part = lookup t q part ∧
    lookupAllSubsets (t.add [] v).2 q = lookupAllSubsets t q ∧
    (∀ u ∈ getAllElementsValues t, ∃ K, (K, u) ∈ collectPaths t (∅ : Finset L) ∧ K ≠ ∅) := by
  refine ⟨rfl, rfl, rfl, ?_, ?_, ?_⟩
  · cases t with
    | mk a cs =>
      rw [lookup, lookup]
      exact congrArg (fun o => Option.getD o [])
        (lookupAux_root_value_irrelevant (some v) a cs _ _ le_rfl part)
  · cases t with
    | mk a cs => rfl
  · intro u hu
    rcases List.mem_map.mp hu with ⟨x, hx, hxu⟩
    rcases greedy_sel ∅ _ x hx with ⟨hmem, hne⟩
    have hmem2 : x ∈ collectPaths t (∅ : Finset L) :=
      (sortByCardDesc_perm _).mem_iff.mp hmem
    exact ⟨x.1, by rw [← hxu]; simpa using hmem2, hne⟩

/-- C9 witness: the conjunction at the scenario trie with values "r", "s",
query 0, exact mode. -/
theorem empty_set_insert_invisible_witness :
    ((exTrie.add [] "r").2).value = some "r" ∧
    ((exTrie.add [] "r").2).children = exTrie.children ∧
    (((exTrie.add [] "r").2).add [] "s").1 = some "r" ∧
    lookup (exTrie.add [] "r").2 [0] false = lookup exTrie [0] false ∧
    lookupAllSubsets (exTrie.add [] "r").2 [0] = lookupAllSubsets exTrie [0] ∧
    (∀ u ∈ getAllElementsValues exTrie,
      ∃ K, (K, u) ∈ collectPaths exTrie (∅ : Finset Nat) ∧ K ≠ ∅) :=
  empty_set_insert_invisible exTrie "r" "s" [0] false


/-- The union of the path sets of a list of (path set, value) entries. -/
def unionOf (l : List (Finset L × V)) : Finset L := l.foldr (fun x acc => x.1 ∪ acc) ∅

theorem unionOf_nil : unionOf ([] : List (Finset L × V)) = ∅ := rfl

theorem unionOf_cons (hd : Finset L × V) (l : List (Finset L × V)) :
    unionOf (hd :: l) = hd.1 ∪ unionOf l := rfl

theorem mem_unionOf (a : L) (l : List (Finset L × V)) :
    a ∈ unionOf l ↔ ∃ x ∈ l, a ∈ x.1 := by
  induction l with
  | nil => simp [unionOf_nil]
  | cons hd rest ih => simp [unionOf_cons, ih]

theorem unionOf_append (l₁ l₂ : List (Finset L × V)) :
    unionOf (l₁ ++ l₂) = unionOf l₁ ∪ unionOf l₂ := by
  induction l₁ with
  | nil => simp [unionOf_nil, unionOf_cons]
  | cons hd rest ih => simp [unionOf_cons, ih, Finset.union_assoc]

theorem collectFold_nil (cp : Finset L) : collectFold ([] : List (L × TrieNode L V)) cp = [] := rfl

theorem unionOf_collectFold_cons (e : L) (c : TrieNode L V) (rest : List (L × TrieNode L V))
    (cp : Finset L) :
    unionOf (collectFold ((e, c) :: rest) cp) =
      unionOf (collectPaths c (insert e cp)) ∪ unionOf (collectFold rest cp) := by
  rw [collectFold, unionOf_append]

theorem contrib_subset_of_assocGet {cs : List (L × TrieNode L V)} {e : L} {c : TrieNode L V}
    (h : assocGet cs e = some c) (cp : Finset L) :
    unionOf (collectPaths c (insert e cp)) ⊆ unionOf (collectFold cs cp) := by
  induction cs with
  | nil => simp [assocGet] at h
  | cons hd rest ih =>
    obtain ⟨k, c0⟩ := hd
    rw [assocGet] at h
    rw [unionOf_collectFold_cons]
    by_cases hek : e = k
    · rw [if_pos hek] at h
      injection h with h
      subst hek
      rw [h]
      exact Finset.subset_union_left
    · rw [if_neg hek] at h
      exact (ih h).trans Finset.subset_union_right

theorem unionOf_collectPaths_empty (cp : Finset L) :
    unionOf (collectPaths (TrieNode.empty : TrieNode L V) cp) = ∅ := rfl

theorem unionOf_assocInsert_new {cs : List (L × TrieNode L V)} {e : L}
    (h : assocGet cs e = none) (c' : TrieNode L V) (cp : Finset L) :
    unionOf (collectFold (assocInsert e c' cs) cp) =
      unionOf (collectFold cs cp) ∪ unionOf (collectPaths c' (insert e cp)) := by
  induction cs with
  | nil =>
    rw [assocInsert, unionOf_collectFold_cons, collectFold_nil, unionOf_nil]
    exact Finset.union_comm _ _
  | cons hd rest ih =>
    obtain ⟨k, c0⟩ := hd
    rw [assocGet] at h
    by_cases hek : e = k
    · rw [if_pos hek] at h; cases h
    · rw [if_neg hek] at h
      rw [assocInsert]
      by_cases hlt : e < k
      · rw [if_pos hlt]
        simp only [unionOf_collectFold_cons]
        ext a; simp only [Finset.mem_union]; tauto
      · rw [if_neg hlt, if_neg hek]
        simp only [unionOf_collectFold_cons, ih h]
        ext a; simp only [Finset.mem_union]; tauto

theorem unionOf_assocInsert_replace {cs : List (L × TrieNode L V)} {e : L} {c : TrieNode L V}
    (h : assocGet cs e = some c) (c' : TrieNode L V) (cp : Finset L)
    (hsub : unionOf (collectPaths c (insert e cp)) ⊆ unionOf (collectPaths c' (insert e cp))) :
    unionOf (collectFold (assocInsert e c' cs) cp) =
      unionOf (collectFold cs cp) ∪ unionOf (collectPaths c' (insert e cp)) := by
  induction cs with
  | nil => simp [assocGet] at h
  | cons hd rest ih =>
    obtain ⟨k, c0⟩ := hd
    rw [assocGet] at h
    rw [assocInsert]
    by_cases hlt : e < k
    · have hek : ¬ e = k := ne_of_lt hlt
      rw [if_neg hek] at h
      rw [if_pos hlt]
      simp only [unionOf_collectFold_cons]
      have hc := fun {a} (ha : a ∈ unionOf (collectPaths c (insert e cp))) =>
        contrib_subset_of_assocGet h cp ha
      ext a
      simp only [Finset.mem_union]
      constructor
      · intro hx; tauto
      · intro hx; tauto
    · rw [if_neg hlt]
      by_cases hek : e = k
      · rw [if_pos hek] at h
        injection h with h
        subst h
        rw [if_pos hek]
        subst hek
        simp only [unionOf_collectFold_cons]
        have hs := fun {a} (ha : a ∈ unionOf (collectPaths c0 (insert e cp))) => hsub ha
        ext a
        simp only [Finset.mem_union]
        constructor
        · intro hx; tauto
        · intro hx; tauto
      · rw [if_neg hek] at h
        rw [if_neg hek]
        simp only [unionOf_collectFold_cons, ih h]
        ext a; simp only [Finset.mem_union]; tauto


theorem collectPaths_mk (val : Option V) (cs : List (L × TrieNode L V)) (cp : Finset L) :
    collectPaths (TrieNode.mk val cs) cp = (val.map fun v => (cp, v)).toList ++ collectFold cs cp :=
  rfl

theorem unionOf_val_toList (val : Option V) (cp : Finset L) :
    unionOf ((val.map fun v => (cp, v)).toList) ⊆ cp := by
  cases val with
  | none => simp [unionOf_nil]
  | some v =>
    intro a ha
    rw [show ((some v).map fun v => (cp, v)).toList = [(cp, v)] from rfl] at ha
    rw [unionOf_cons, unionOf_nil] at ha
    simpa using ha

/-- Inserting along the sorted path `l` extends the union of all entry path
sets by exactly `cp ∪ l.toFinset`. -/
theorem unionOf_collectPaths_addPath (l : List L) (v : V) :
    ∀ (t : TrieNode L V) (cp : Finset L),
      unionOf (collectPaths (addPath t l v).2 cp) =
        unionOf (collectPaths t cp) ∪ cp ∪ l.toFinset := by
  induction l with
  | nil =>
    intro t cp
    cases t with
    | mk val cs =>
      rw [addPath]
      simp only [TrieNode.value_mk, TrieNode.children_mk, collectPaths_mk, unionOf_append]
      cases val with
      | none =>
        rw [show ((Option.map (fun v => (cp, v)) (none : Option V)).toList) = [] from rfl]
        rw [show ((Option.map (fun v => (cp, v)) (some v)).toList) = [(cp, v)] from rfl]
        rw [unionOf_nil, unionOf_cons, unionOf_nil]
        ext a; simp only [Finset.mem_union, List.toFinset_nil, Finset.not_mem_empty]; simp
        tauto
      | some w =>
        rw [show ((Option.map (fun v => (cp, v)) (some w)).toList) = [(cp, w)] from rfl]
        rw [show ((Option.map (fun v => (cp, v)) (some v)).toList) = [(cp, v)] from rfl]
        rw [unionOf_cons, unionOf_cons, unionOf_nil]
        ext a; simp only [Finset.mem_union, List.toFinset_nil, Finset.not_mem_empty]; simp
        tauto
  | cons e rest ih =>
    intro t cp
    cases t with
    | mk val cs =>
      rw [addPath]
      simp only [TrieNode.value_mk, TrieNode.children_mk, collectPaths_mk, unionOf_append]
      cases hget : assocGet cs e with
      | none =>
        simp only [hget, Option.getD_none]
        rw [unionOf_assocInsert_new hget _ cp, ih TrieNode.empty (insert e cp)]
        rw [unionOf_collectPaths_empty]
        ext a
        simp only [Finset.mem_union, Finset.mem_insert, List.toFinset_cons,
          Finset.not_mem_empty, List.mem_toFinset]
        simp
        tauto
      | some c =>
        simp only [hget, Option.getD_some]
        have hsub : unionOf (collectPaths c (insert e cp)) ⊆
            unionOf (collectPaths (addPath c rest v).2 (insert e cp)) := by
          rw [ih c (insert e cp)]
          intro a ha
          exact Finset.mem_union_left _ (Finset.mem_union_left _ ha)
        rw [unionOf_assocInsert_replace hget _ cp hsub, ih c (insert e cp)]
        have hc := fun {a} (ha : a ∈ unionOf (collectPaths c (insert e cp))) =>
          contrib_subset_of_assocGet hget cp ha
        ext a
        simp only [Finset.mem_union, Finset.mem_insert, List.toFinset_cons, List.mem_toFinset]
        constructor
        · intro hx; rcases hx with hx | hx | hx | (hx | hx) | hx <;> tauto
        · intro hx; tauto


/-- Every entry scanned by the greedy loop ends up covered: its path set is
inside the initial covered set united with the union of the selected sets. -/
theorem greedy_cover (l : List (Finset L × V)) :
    ∀ (c : Finset L), ∀ x ∈ l, x.1 ⊆ c ∪ unionOf (greedy c l) := by
  induction l with
  | nil => intro c x hx; simp at hx
  | cons hd rest ih =>
    intro c x hx
    rw [greedy]
    by_cases hsub : hd.1 ⊆ c
    · rw [if_pos hsub]
      rcases List.mem_cons.mp hx with rfl | hx
      · exact hsub.trans Finset.subset_union_left
      · exact ih c x hx
    · rw [if_neg hsub, unionOf_cons]
      rcases List.mem_cons.mp hx with rfl | hx
      · intro a ha
        exact Finset.mem_union_right _ (Finset.mem_union_left _ ha)
      · intro a ha
        have := ih (c ∪ hd.1) x hx ha
        rw [Finset.mem_union] at this ⊢
        rcases this with h | h
        · rw [Finset.mem_union] at h
          rcases h with h | h
          · exact Or.inl h
          · exact Or.inr (Finset.mem_union_left _ h)
        · exact Or.inr (Finset.mem_union_right _ h)

/-- The union of the path sets selected by `get_all_elements` equals the
union of all registered entries' path sets. -/
theorem unionOf_greedySelection (t : TrieNode L V) :
    unionOf (greedySelection t) = unionOf (collectPaths t (∅ : Finset L)) := by
  apply Finset.Subset.antisymm
  · intro a ha
    rcases (mem_unionOf a _).mp ha with ⟨x, hx, hax⟩
    rcases greedy_sel _ _ x hx with ⟨hmem, _⟩
    exact (mem_unionOf a _).mpr ⟨x, (sortByCardDesc_perm _).mem_iff.mp hmem, hax⟩
  · intro a ha
    rcases (mem_unionOf a _).mp ha with ⟨x, hx, hax⟩
    have hx2 : x ∈ sortByCardDesc (collectPaths t (∅ : Finset L)) :=
      (sortByCardDesc_perm _).mem_iff.mpr hx
    have := greedy_cover _ ∅ x hx2 hax
    rw [Finset.empty_union] at this
    exact this

/-- C7: after any sequence of insertions of duplicate-free label sets into a
fresh trie, the union of the path sets of the entries selected by
`get_all_elements` equals the union of all labels ever inserted. -/
theorem get_all_elements_covers_inserted (ops : List (List L × V))
    (hnd : ∀ op ∈ ops, op.1.Nodup) :
    unionOf (greedySelection (buildTrie ops)) =
      ops.foldr (fun op acc => op.1.toFinset ∪ acc) ∅ := by
  rw [unionOf_greedySelection]
  suffices h : ∀ (t : TrieNode L V),
      unionOf (collectPaths (ops.foldl (fun t op => (t.add op.1 op.2).2) t) (∅ : Finset L)) =
        unionOf (collectPaths t (∅ : Finset L)) ∪
          ops.foldr (fun op acc => op.1.toFinset ∪ acc) ∅ by
    rw [buildTrie, h TrieNode.empty, unionOf_collectPaths_empty, Finset.empty_union]
  clear hnd
  induction ops with
  | nil => intro t; simp [List.foldl_nil, List.foldr_nil]
  | cons op ops ih =>
    intro t
    rw [List.foldl_cons, List.foldr_cons, ih ((t.add op.1 op.2).2)]
    rw [TrieNode.add, unionOf_collectPaths_addPath]
    rw [show (sortAsc op.1).toFinset = op.1.toFinset from List.toFinset_eq_of_perm _ _ (sortAsc_perm op.1)]
    ext a
    simp only [Finset.mem_union, Finset.not_mem_empty]
    tauto

/-- C7 witness: for the scenario's three insertions the selected sets cover
exactly the labels 0, 1, 2. -/
theorem get_all_elements_covers_inserted_witness :
    unionOf (greedySelection (buildTrie [([0], "a"), ([0, 1], "ab"), ([1, 2], "bc")])) =
      [([0], "a"), ([0, 1], "ab"), ([1, 2], "bc")].foldr
        (fun op acc => op.1.toFinset ∪ acc) (∅ : Finset Nat) :=
  get_all_elements_covers_inserted [([0], "a"), ([0, 1], "ab"), ([1, 2], "bc")]
    (by decide)


/-- The `lookup` loop with an explicit fuel budget: `none` means the budget
ran out before the loop finished; otherwise `some` of the loop's answer. -/
def lookupFuel (root : TrieNode L V) : Nat → List L → Bool → Option (Option (List V))
  | 0, _, _ => none
  | n + 1, [], _ => some (some [])
  | n + 1, e :: rest, part =>
    match assocGet root.children e with
    | none => if part then lookupFuel root n rest part else some none
    | some child =>
      match findBestMatch child rest (∅ : Finset L) with
      | none => if part then lookupFuel root n rest part else some none
      | some m =>
        (lookupFuel root n (removeAll rest m.1) part).map fun r => r.map fun vs => m.2 :: vs

/-- C8: `lookup` terminates in both modes — every loop iteration strictly
shrinks the remaining list (the popped head alone already does), so a fuel
budget of one more than the query length never runs out and the fuelled loop
computes the loop's answer.  (`_find_best_match` itself recurses structurally
along the finite trie.) -/
theorem lookup_terminates (t : TrieNode L V) :
    (∀ (e : L) (rest : List L) (S : Finset L),
      (removeAll rest S).length < (e :: rest).length) ∧
    (∀ (fuel : Nat) (s : List L) (part : Bool), s.length < fuel →
      lookupFuel t fuel s part = some (lookupAux t s part)) := by
  constructor
  · intro e rest S
    exact Nat.lt_succ_of_le (List.length_filter_le _ rest)
  · intro fuel
    induction fuel with
    | zero => intro s part hs; exact absurd hs (Nat.not_lt_zero _)
    | succ n ih =>
      intro s part hs
      cases s with
      | nil => rw [lookupFuel, lookupAux]
      | cons e rest =>
        have hr : rest.length < n := Nat.lt_of_succ_lt_succ hs
        rw [lookupFuel, lookupAux]
        cases hget : assocGet t.children e with
        | none =>
          simp only [hget]
          cases part
          · rfl
          · simpa using ih rest true hr
        | some child =>
          simp only [hget]
          cases hbm : findBestMatch child rest (∅ : Finset L) with
          | none =>
            simp only [hbm]
            cases part
            · rfl
            · simpa using ih rest true hr
          | some m =>
            simp only [hbm]
            rw [ih (removeAll rest m.1) part
              (Nat.lt_of_le_of_lt (List.length_filter_le _ rest) hr)]
            rfl

/-- C8 witness: fuel 3 suffices for the two-label query on the scenario
trie. -/
theorem lookup_terminates_witness :
    lookupFuel exTrie 3 [0, 1] false = some (lookupAux exTrie [0, 1] false) :=
  (lookup_terminates exTrie).2 3 [0, 1] false (by decide)

end SetSpace
